import Mathlib

/-!
# Verification of the trace-viewer core

A shallow embedding of the trace-viewer's core (`src/core/TraceModel.ts`,
`src/core/CanvasRenderer.ts`, `src/components/Timeline.tsx`) together with
proofs of the specification's claims about it.

Modelling conventions:
* JavaScript numbers holding microsecond timestamps/durations are modelled as
  `Int` (the spec fixes them to integer microseconds); view-state coordinates,
  which undergo division, are modelled as `ℚ`.
* `pid`/`tid` are `Int`; a value of `0` models both an absent field and a
  literal `0` (the two falsy cases tested by `!event.pid && !event.tid`).
* `minTime`/`maxTime` start at `+Infinity`/`-Infinity` in the source, so they
  are modelled as `WithTop ℤ` (with `⊤` = `+Infinity`) and `WithBot ℤ`
  (with `⊥` = `-Infinity`).
* JavaScript `Map` iterates in insertion order; `processes` and `threads` are
  modelled as lists in insertion order, keyed by the `pid`/`tid` field,
  where get-or-create keeps an existing key in place and appends a new key.
* JavaScript `Array.prototype.sort` is stable; `events.sort((a,b) => a.ts - b.ts)`
  is modelled by `List.insertionSort` on `·.ts ≤ ·.ts`, which is stable.
-/

namespace TraceViewer

/-- A raw input record, before ingestion (`TraceEvent` fields as they arrive
in the JSON input): `dur` may be absent, `args?.name` is modelled by
`argsName`. -/
structure RawEvent where
  name : String
  cat : String
  ph : String
  ts : Int
  pid : Int
  tid : Int
  dur : Option Int
  argsName : Option String
deriving DecidableEq, Repr

/-- A normalized event as stored in a `Thread` after ingestion
(`TraceModel.ts` lines 1–12): `ts`/`dur` have been coerced to numbers
(`dur` defaulted to 0) and `depth` has been computed. -/
structure TraceEvent where
  name : String
  cat : String
  ph : String
  ts : Int
  pid : Int
  tid : Int
  dur : Int
  argsName : Option String
  depth : Nat
deriving DecidableEq, Repr

/-- `Thread` (`TraceModel.ts` lines 14–19); `maxDepth` is 0 until the
finalization pass computes it. -/
structure Thread where
  tid : Int
  name : String
  events : List TraceEvent
  maxDepth : Nat
deriving DecidableEq, Repr

/-- `Process` (`TraceModel.ts` lines 21–25); threads in insertion order. -/
structure Process where
  pid : Int
  name : String
  threads : List Thread
deriving DecidableEq, Repr

/-- `TraceModel` (`TraceModel.ts` lines 27–31). -/
structure TraceModel where
  processes : List Process
  minTime : WithTop Int
  maxTime : WithBot Int
deriving DecidableEq, Repr

/-- The parser's running state: the `processes` map and the running
`minTime`/`maxTime` (`TraceModel.ts` lines 44–46). -/
structure PState where
  processes : List Process
  minTime : WithTop Int
  maxTime : WithBot Int
deriving DecidableEq, Repr

/-- Line 50: `if (!event.pid && !event.tid) continue;` — the record is
skipped when both ids are absent/zero-equivalent. -/
def skipped (e : RawEvent) : Bool :=
  e.pid == 0 && e.tid == 0

/-- Line 54: `const dur = event.dur ? Number(event.dur) : 0;` — an absent
(or zero, both falsy) duration is coerced to 0. -/
def normDur (e : RawEvent) : Int :=
  match e.dur with
  | some d => d
  | none => 0

/-- Lines 64 and 107: `dur ? ts + dur : ts` — the end time of an event given
its (already-coerced) start and duration. -/
def endOf (ts dur : Int) : Int :=
  if dur ≠ 0 then ts + dur else ts

/-- Lines 53–58: the event as stored into a thread's list: numeric `ts`,
`dur` defaulted to 0, `depth` not yet assigned (0). -/
def normalize (e : RawEvent) : TraceEvent :=
  { name := e.name, cat := e.cat, ph := e.ph, ts := e.ts, pid := e.pid,
    tid := e.tid, dur := normDur e, argsName := e.argsName, depth := 0 }

/-- Truthiness of `event.args?.name` (lines 83 and 85): present and not the
empty string. -/
def truthyArgsName : Option String → Bool
  | some n => n != ""
  | none => false

/-- Lines 82–90 restricted to the thread: a Metadata record with name
`thread_name` and a truthy `args.name` renames the thread; any other
Metadata record does nothing to the thread; a non-Metadata record is
appended to the thread's event list. -/
def applyToThread (e : RawEvent) (th : Thread) : Thread :=
  if e.ph == "M" then
    if e.name == "thread_name" && truthyArgsName e.argsName then
      match e.argsName with
      | some n => { th with name := n }
      | none => th
    else th
  else { th with events := th.events ++ [normalize e] }

/-- Lines 82–87 restricted to the process: a Metadata record with name
`process_name` and a truthy `args.name` renames the process. -/
def applyToProcessName (e : RawEvent) (p : Process) : Process :=
  if e.ph == "M" && (e.name == "process_name" && truthyArgsName e.argsName) then
    match e.argsName with
    | some n => { p with name := n }
    | none => p
  else p

/-- Line 77: the freshly created thread with its defaulted display name. -/
def newThread (e : RawEvent) : Thread :=
  { tid := e.tid, name := "Thread " ++ toString e.tid, events := [], maxDepth := 0 }

/-- Lines 75–79: get or create the thread keyed by `e.tid` (a `Map`: an
existing key keeps its position, a new key is appended at the end) and apply
the record to it. -/
def updThreads (e : RawEvent) : List Thread → List Thread
  | [] => [applyToThread e (newThread e)]
  | th :: rest =>
    if th.tid == e.tid then applyToThread e th :: rest
    else th :: updThreads e rest

/-- Lines 67–90 for one process: possibly rename it (process_name metadata),
then get-or-create and update the owning thread. -/
def applyToProcess (e : RawEvent) (p : Process) : Process :=
  let p' := applyToProcessName e p
  { p' with threads := updThreads e p'.threads }

/-- Line 70: the freshly created process with its defaulted display name. -/
def newProcess (e : RawEvent) : Process :=
  { pid := e.pid, name := "Process " ++ toString e.pid, threads := [] }

/-- Lines 67–72: get or create the process keyed by `e.pid` and apply the
record to it. -/
def updProcesses (e : RawEvent) : List Process → List Process
  | [] => [applyToProcess e (newProcess e)]
  | p :: rest =>
    if p.pid == e.pid then applyToProcess e p :: rest
    else p :: updProcesses e rest

/-- Lines 48–91: processing of one record of the input loop: skip when both
ids are falsy; otherwise coerce `ts`/`dur`, update the running
`minTime`/`maxTime` with the event's `[ts, endOf ts dur]`, and update the
process map. -/
def step (st : PState) (e : RawEvent) : PState :=
  if skipped e then st
  else
    let ts := e.ts
    let dur := normDur e
    let minT := if (ts : WithTop Int) < st.minTime then (ts : WithTop Int) else st.minTime
    let endTime := endOf ts dur
    let maxT := if st.maxTime < (endTime : WithBot Int) then (endTime : WithBot Int) else st.maxTime
    { processes := updProcesses e st.processes, minTime := minT, maxTime := maxT }

/-- Line 96: `thread.events.sort((a, b) => a.ts - b.ts)`; JavaScript's sort
is stable, modelled by the stable `List.insertionSort`. -/
def sortByTs (l : List TraceEvent) : List TraceEvent :=
  List.insertionSort (fun a b => a.ts ≤ b.ts) l

/-- Lines 105–111: the backwards splice over the stack removes every entry
whose end time is ≤ the current event's start; removing while iterating
backwards keeps the relative order of the survivors, i.e. it is a filter. -/
def popEnded (stack : List TraceEvent) (ts : Int) : List TraceEvent :=
  stack.filter (fun se => !(endOf se.ts se.dur ≤ ts))

/-- Lines 99–126: the depth pass over a sorted event list, carrying the
stack of currently open events and the running `maxDepth`; each event's
depth is the stack size after popping ended entries, and the event (with its
depth set) is pushed. Returns the updated events and the final `maxDepth`. -/
def depthPass (stack : List TraceEvent) (maxD : Nat) :
    List TraceEvent → List TraceEvent × Nat
  | [] => ([], maxD)
  | e :: rest =>
    let stack' := popEnded stack e.ts
    let e' := { e with depth := stack'.length }
    let r := depthPass (stack' ++ [e']) (max maxD e'.depth) rest
    (e' :: r.1, r.2)

/-- Lines 94–128 for one thread: stable sort by `ts`, then the depth pass
starting with an empty stack and `maxDepth = 0`. -/
def finalizeThread (th : Thread) : Thread :=
  let r := depthPass [] 0 (sortByTs th.events)
  { th with events := r.1, maxDepth := r.2 }

/-- Lines 94–128: finalization applied to every thread of a process. -/
def finalizeProcess (p : Process) : Process :=
  { p with threads := p.threads.map finalizeThread }

/-- The whole event loop plus finalization (lines 44–131): fold the records
through `step` from the empty state (`minTime = +Infinity`,
`maxTime = -Infinity`), then sort and compute depths per thread. -/
def buildModel (events : List RawEvent) : TraceModel :=
  let st := events.foldl step { processes := [], minTime := ⊤, maxTime := ⊥ }
  { processes := st.processes.map finalizeProcess,
    minTime := st.minTime, maxTime := st.maxTime }

/-- The shape of the raw JSON input (lines 36–42): an array, an object with a
`traceEvents` array, or anything else (an object without that array field,
such as `{}`, or a non-object). -/
inductive TraceData where
  | arr (events : List RawEvent)
  | objWithEvents (traceEvents : List RawEvent)
  | objOther
deriving DecidableEq, Repr

/-- Lines 33–42 and 130: `parseTrace` — accept an array or an object with a
`traceEvents` array, otherwise throw `new Error("Invalid trace format")`
(the spec's `FormatError`). -/
def parseTrace (data : TraceData) : Except String TraceModel :=
  match data with
  | .arr events => .ok (buildModel events)
  | .objWithEvents events => .ok (buildModel events)
  | .objOther => .error "Invalid trace format"

/-- The event-record list carried by an input (empty for the rejected
shape). -/
def eventsOfData : TraceData → List RawEvent
  | .arr l => l
  | .objWithEvents l => l
  | .objOther => []

/-- Lookup of a process by pid in iteration order. -/
def findProc (procs : List Process) (pid : Int) : Option Process :=
  procs.find? (fun p => p.pid == pid)

/-- Lookup of a thread by tid in iteration order. -/
def findThread (p : Process) (tid : Int) : Option Thread :=
  p.threads.find? (fun th => th.tid == tid)

/-- The event list of the thread keyed `(pid, tid)` (empty when the process
or thread does not exist). -/
def threadEvents (procs : List Process) (pid tid : Int) : List TraceEvent :=
  ((((findProc procs pid).bind (fun p => findThread p tid))).map Thread.events).getD []

/-- The thread keyed `(pid, tid)` of a model, if present. -/
def modelThread (m : TraceModel) (pid tid : Int) : Option Thread :=
  (findProc m.processes pid).bind (fun p => findThread p tid)

/-- Whether a record is routed into the event list of thread `(pid, tid)`:
not skipped, owned by that thread, and not a Metadata record (lines 48–90). -/
def routedTo (pid tid : Int) (e : RawEvent) : Bool :=
  !skipped e && (e.pid == pid && (e.tid == tid && e.ph != "M"))

/-- An event with its computed `depth` field reset, for comparing event
lists up to the depth assignment. -/
def eraseDepth (e : TraceEvent) : TraceEvent :=
  { e with depth := 0 }

/-- The effect of one record on the display name of its owning process
(lines 82–84): a Metadata record named `process_name` with a truthy
`args.name` replaces the name, every other record leaves it unchanged. -/
def procNameUpd (e : RawEvent) (n : String) : String :=
  if e.ph == "M" && (e.name == "process_name" && truthyArgsName e.argsName) then
    match e.argsName with
    | some s => s
    | none => n
  else n

/-- The effect of one record on the display name of its owning thread
(lines 82–87): a Metadata record named `thread_name` with a truthy
`args.name` replaces the name, every other record leaves it unchanged. -/
def threadNameUpd (e : RawEvent) (n : String) : String :=
  if e.ph == "M" then
    if e.name == "thread_name" && truthyArgsName e.argsName then
      match e.argsName with
      | some s => s
      | none => n
    else n
  else n

/-- The display name of the process keyed `pid`, if present. -/
def procName (procs : List Process) (pid : Int) : Option String :=
  (findProc procs pid).map Process.name

/-- The display name of the thread keyed `(pid, tid)`, if present. -/
def threadName (procs : List Process) (pid tid : Int) : Option String :=
  ((findProc procs pid).bind (fun p => findThread p tid)).map Thread.name

/-- Whether a record is owned by process `pid` and not skipped. -/
def ownedByProc (pid : Int) (e : RawEvent) : Bool :=
  !skipped e && e.pid == pid

/-- Whether a record is owned by thread `(pid, tid)` and not skipped. -/
def ownedByThread (pid tid : Int) (e : RawEvent) : Bool :=
  !skipped e && (e.pid == pid && e.tid == tid)

/-! ## Navigation controller (`src/components/Timeline.tsx`)

The time bounds of the view state; coordinates are `ℚ` since the zoom and
pan transitions divide. -/

/-- The `(visibleStartTime, visibleEndTime)` part of the view state
(`Timeline.tsx` lines 16–25). -/
structure ViewState where
  visibleStartTime : ℚ
  visibleEndTime : ℚ
deriving DecidableEq, Repr

/-- Line 71: `const zoomSpeed = 0.05;`. -/
def zoomSpeed : ℚ := 5 / 100

/-- Lines 74–80: per-frame held-`w` zoom-in: shrink the range by the zoom
speed around the range's center. -/
def zoomInStep (s : ViewState) : ViewState :=
  let range := s.visibleEndTime - s.visibleStartTime
  let center := (s.visibleStartTime + s.visibleEndTime) / 2
  let newRange := range * (1 - zoomSpeed)
  { visibleStartTime := center - newRange / 2,
    visibleEndTime := center + newRange / 2 }

/-- Lines 81–87: per-frame held-`s` zoom-out: grow the range by the zoom
speed around the range's center. -/
def zoomOutStep (s : ViewState) : ViewState :=
  let range := s.visibleEndTime - s.visibleStartTime
  let center := (s.visibleStartTime + s.visibleEndTime) / 2
  let newRange := range * (1 + zoomSpeed)
  { visibleStartTime := center - newRange / 2,
    visibleEndTime := center + newRange / 2 }

/-- Lines 129 and 133: `zoomFactor = 1 + Math.abs(e.deltaY) * 0.001`, and
`newRange = e.deltaY > 0 ? range * zoomFactor : range / zoomFactor`. -/
def wheelZoomRange (range deltaY : ℚ) : ℚ :=
  let zoomFactor := 1 + |deltaY| * (1 / 1000)
  if 0 < deltaY then range * zoomFactor else range / zoomFactor

/-- Lines 127–136: modifier-wheel zoom anchored at the pointer: the time
under the mouse is computed from the current range, the range is rescaled
(`wheelZoomRange`), and the new start keeps the pointer's time at the same
fraction of the new range. -/
def wheelZoom (s : ViewState) (deltaY mouseX width : ℚ) : ViewState :=
  let range := s.visibleEndTime - s.visibleStartTime
  let timeAtMouse := s.visibleStartTime + (mouseX / width) * range
  let newRange := wheelZoomRange range deltaY
  { visibleStartTime := timeAtMouse - (mouseX / width) * newRange,
    visibleEndTime := (timeAtMouse - (mouseX / width) * newRange) + newRange }

/-- The time value under pixel `mouseX`: `visibleStartTime +
(mouseX/width) * (visibleEndTime - visibleStartTime)` (line 131). -/
def timeAtPixel (s : ViewState) (mouseX width : ℚ) : ℚ :=
  s.visibleStartTime + (mouseX / width) * (s.visibleEndTime - s.visibleStartTime)

/-! ## Renderer layout walk (`src/core/CanvasRenderer.ts`)

Layout constants (lines 9–12) and the Y-cursor walks of `render`
(lines 57–84) and `getEventAt` (lines 210–235). -/

/-- Line 9: `TRACK_HEIGHT = 24`. -/
def TRACK_HEIGHT : ℚ := 24

/-- Line 10: `TRACK_PADDING = 4`. -/
def TRACK_PADDING : ℚ := 4

/-- Line 12: `HEADER_HEIGHT = 30`. -/
def HEADER_HEIGHT : ℚ := 30

/-- One row of `render`'s vertical layout: its top `y`, its height `h`, and
whether the source's culling condition lets it be drawn. -/
structure RenderRow where
  y : ℚ
  h : ℚ
  drawn : Bool
deriving DecidableEq, Repr

/-- One band of `getEventAt`'s vertical walk: its top `y` and height `h`. -/
structure HitRow where
  y : ℚ
  h : ℚ
deriving DecidableEq, Repr

/-- `render` lines 75–83 for the threads of one process: each thread's band
top is the current cursor, its height is `((maxDepth || 0) + 1) *
TRACK_HEIGHT`, it is drawn iff `currentY + trackPixelHeight > 0 && currentY
< height`, and the cursor advances by the band height plus padding whether
or not the band is drawn. Returns the rows and the final cursor. -/
def renderThreadRows (height : ℚ) : List Thread → ℚ → List RenderRow × ℚ
  | [], curY => ([], curY)
  | th :: rest, curY =>
    let trackPixelHeight := ((th.maxDepth : ℚ) + 1) * TRACK_HEIGHT
    let drawn := decide (0 < curY + trackPixelHeight) && decide (curY < height)
    let r := renderThreadRows height rest (curY + trackPixelHeight + TRACK_PADDING)
    (⟨curY, trackPixelHeight, drawn⟩ :: r.1, r.2)

/-- `render` lines 63–84: per process, a header row at the cursor (height
`TRACK_HEIGHT`, drawn iff `currentY + TRACK_HEIGHT > 0 && currentY <
height`), cursor advanced by `TRACK_HEIGHT + TRACK_PADDING`, then the
thread bands. -/
def renderRows (height : ℚ) : List Process → ℚ → List RenderRow × ℚ
  | [], curY => ([], curY)
  | p :: rest, curY =>
    let headerDrawn := decide (0 < curY + TRACK_HEIGHT) && decide (curY < height)
    let headerRow : RenderRow := ⟨curY, TRACK_HEIGHT, headerDrawn⟩
    let t := renderThreadRows height p.threads (curY + TRACK_HEIGHT + TRACK_PADDING)
    let r := renderRows height rest t.2
    (headerRow :: (t.1 ++ r.1), r.2)

/-- The Y-cursor accumulation of `render` (lines 57–84): the cursor starts
at `HEADER_HEIGHT - scrollTop` and walks every process header and thread
band of the model, recording each row's top, height and drawn flag. -/
def renderWalk (m : TraceModel) (scrollTop height : ℚ) : List RenderRow :=
  (renderRows height m.processes (HEADER_HEIGHT - scrollTop)).1

/-- `getEventAt` lines 215–233 for the threads of one process: the cursor
passes each thread band (top = cursor, height `((maxDepth || 0) + 1) *
TRACK_HEIGHT`) and advances by the band height plus padding. -/
def hitThreadRows : List Thread → ℚ → List HitRow × ℚ
  | [], curY => ([], curY)
  | th :: rest, curY =>
    let trackPixelHeight := ((th.maxDepth : ℚ) + 1) * TRACK_HEIGHT
    let r := hitThreadRows rest (curY + trackPixelHeight + TRACK_PADDING)
    (⟨curY, trackPixelHeight⟩ :: r.1, r.2)

/-- `getEventAt` lines 210–235: per process, the cursor value at the header
(advanced by `TRACK_HEIGHT + TRACK_PADDING` for the header) and then the
thread bands. -/
def hitRows : List Process → ℚ → List HitRow × ℚ
  | [], curY => ([], curY)
  | p :: rest, curY =>
    let headerRow : HitRow := ⟨curY, TRACK_HEIGHT⟩
    let t := hitThreadRows p.threads (curY + TRACK_HEIGHT + TRACK_PADDING)
    let r := hitRows rest t.2
    (headerRow :: (t.1 ++ r.1), r.2)

/-- The Y-cursor accumulation of `getEventAt` (lines 210–235): the cursor
starts at `HEADER_HEIGHT - scrollTop` and walks every process header and
thread band, recording each top and height. -/
def hitWalk (m : TraceModel) (scrollTop : ℚ) : List HitRow :=
  (hitRows m.processes (HEADER_HEIGHT - scrollTop)).1

/-- Projection of a render row onto its geometry, dropping the drawn flag. -/
def rowGeom (r : RenderRow) : ℚ × ℚ := (r.y, r.h)

/-- Projection of a hit-test band onto its geometry. -/
def hitGeom (r : HitRow) : ℚ × ℚ := (r.y, r.h)

/-- The initial view state on a new model (`Timeline.tsx` lines 16–25 and
38–43): the visible range is `[model.minTime, model.maxTime]`, which for an
empty model is the degenerate `[+Infinity, -Infinity]`. -/
structure InitView where
  visibleStartTime : WithTop Int
  visibleEndTime : WithBot Int
deriving DecidableEq, Repr

/-- `Timeline.tsx` lines 16–18 / 38–43: initialize the visible range to the
model's time bounds. -/
def initViewState (m : TraceModel) : InitView :=
  { visibleStartTime := m.minTime, visibleEndTime := m.maxTime }

/-! ## Structural lemmas about the ingestion fold -/

lemma applyToThread_tid (e : RawEvent) (th : Thread) :
    (applyToThread e th).tid = th.tid := by
  unfold applyToThread
  split_ifs <;> first | rfl | (cases e.argsName <;> rfl)

lemma applyToThread_events (e : RawEvent) (th : Thread) :
    (applyToThread e th).events
      = th.events ++ if e.ph == "M" then [] else [normalize e] := by
  unfold applyToThread
  split_ifs with h₁ h₂ <;> (first | (simp [h₁]; cases e.argsName <;> rfl) | simp [h₁])

lemma applyToProcessName_pid (e : RawEvent) (p : Process) :
    (applyToProcessName e p).pid = p.pid := by
  unfold applyToProcessName
  split_ifs <;> first | rfl | (cases e.argsName <;> rfl)

lemma applyToProcessName_threads (e : RawEvent) (p : Process) :
    (applyToProcessName e p).threads = p.threads := by
  unfold applyToProcessName
  split_ifs <;> first | rfl | (cases e.argsName <;> rfl)

lemma applyToProcess_pid (e : RawEvent) (p : Process) :
    (applyToProcess e p).pid = p.pid := by
  unfold applyToProcess
  simp [applyToProcessName_pid]

lemma applyToProcess_threads (e : RawEvent) (p : Process) :
    (applyToProcess e p).threads = updThreads e p.threads := by
  unfold applyToProcess
  simp [applyToProcessName_threads]

lemma updThreads_find_ne (e : RawEvent) (ths : List Thread) (tid : Int) (h : tid ≠ e.tid) :
    (updThreads e ths).find? (fun th => th.tid == tid)
      = ths.find? (fun th => th.tid == tid) := by
  have hne : (e.tid == tid) = false := by simpa using Ne.symm h
  induction ths with
  | nil =>
    simp [updThreads, List.find?, applyToThread_tid, newThread, hne]
  | cons th rest ih =>
    by_cases hth : th.tid == e.tid
    · have heq : th.tid = e.tid := by simpa using hth
      simp [updThreads, hth, List.find?, applyToThread_tid, heq, hne]
    · by_cases hq : th.tid == tid
      · simp [updThreads, hth, List.find?, hq]
      · simp [updThreads, hth, List.find?, hq, ih]

lemma updThreads_find_eq (e : RawEvent) (ths : List Thread) :
    (updThreads e ths).find? (fun th => th.tid == e.tid)
      = some (applyToThread e
          (((ths.find? (fun th => th.tid == e.tid)).getD (newThread e)))) := by
  induction ths with
  | nil => simp [updThreads, List.find?, applyToThread_tid, newThread]
  | cons th rest ih =>
    by_cases hth : th.tid == e.tid
    · simp [updThreads, hth, List.find?, applyToThread_tid]
    · simp [updThreads, hth, List.find?, ih]

lemma updProcesses_find_ne (e : RawEvent) (procs : List Process) (pid : Int)
    (h : pid ≠ e.pid) :
    findProc (updProcesses e procs) pid = findProc procs pid := by
  have hne : (e.pid == pid) = false := by simpa using Ne.symm h
  induction procs with
  | nil =>
    simp [updProcesses, findProc, List.find?, applyToProcess_pid, newProcess, hne]
  | cons p rest ih =>
    by_cases hp : p.pid == e.pid
    · have heq : p.pid = e.pid := by simpa using hp
      simp [updProcesses, findProc, hp, List.find?, applyToProcess_pid, heq, hne]
    · by_cases hq : p.pid == pid
      · simp [updProcesses, findProc, hp, List.find?, hq]
      · simpa [updProcesses, findProc, hp, List.find?, hq] using ih

lemma updProcesses_find_eq (e : RawEvent) (procs : List Process) :
    findProc (updProcesses e procs) e.pid
      = some (applyToProcess e ((findProc procs e.pid).getD (newProcess e))) := by
  induction procs with
  | nil => simp [updProcesses, findProc, List.find?, applyToProcess_pid, newProcess]
  | cons p rest ih =>
    by_cases hp : p.pid == e.pid
    · simp [updProcesses, findProc, hp, List.find?, applyToProcess_pid]
    · simpa [updProcesses, findProc, hp, List.find?] using ih

lemma threadEvents_updProcesses (e : RawEvent) (procs : List Process) (pid tid : Int) :
    threadEvents (updProcesses e procs) pid tid
      = threadEvents procs pid tid
        ++ if e.pid == pid && (e.tid == tid && e.ph != "M")
           then [normalize e] else [] := by
  by_cases hp : pid = e.pid
  · subst hp
    unfold threadEvents findThread
    rw [updProcesses_find_eq]
    simp only [Option.some_bind', applyToProcess_threads]
    by_cases ht : tid = e.tid
    · subst ht
      rw [updThreads_find_eq]
      cases hfp : findProc procs e.pid with
      | none =>
        by_cases hm : e.ph = "M" <;>
          simp [newProcess, updThreads, List.find?, applyToThread_events, newThread,
            beq_iff_eq, hm]
      | some p =>
        cases hft : p.threads.find? (fun th => th.tid == e.tid) with
        | none =>
          by_cases hm : e.ph = "M" <;>
            simp [hft, applyToThread_events, newThread, beq_iff_eq, hm]
        | some th =>
          by_cases hm : e.ph = "M" <;>
            simp [hft, applyToThread_events, beq_iff_eq, hm]
    · have hne : (e.tid == tid) = false := by simpa using Ne.symm ht
      rw [updThreads_find_ne e _ tid ht]
      cases hfp : findProc procs e.pid with
      | none => simp [newProcess, List.find?, hne]
      | some p =>
        cases hft : p.threads.find? (fun th => th.tid == tid) with
        | none => simp [hft, hne]
        | some th => simp [hft, hne]
  · have hne : (e.pid == pid) = false := by simpa using Ne.symm hp
    unfold threadEvents
    rw [updProcesses_find_ne e _ pid hp]
    simp [hne]

/-- C2/C4/C5 machinery: processing one record either leaves a thread's event
list unchanged or appends the normalized record to the one thread it is
routed to. -/
lemma threadEvents_step (st : PState) (e : RawEvent) (pid tid : Int) :
    threadEvents (step st e).processes pid tid
      = threadEvents st.processes pid tid
        ++ if routedTo pid tid e then [normalize e] else [] := by
  unfold step
  by_cases hs : skipped e
  · simp [hs, routedTo]
  · have hs' : (!skipped e) = true := by simp [hs]
    simp only [hs, if_false, routedTo, hs', Bool.true_and]
    exact threadEvents_updProcesses e st.processes pid tid

/-- The event list of thread `(pid, tid)` after the whole fold is the
initial list followed by the normalized records routed to that thread, in
input order. -/
lemma threadEvents_foldl (l : List RawEvent) (st : PState) (pid tid : Int) :
    threadEvents (l.foldl step st).processes pid tid
      = threadEvents st.processes pid tid
        ++ (l.filter (routedTo pid tid)).map normalize := by
  induction l generalizing st with
  | nil => simp
  | cons e rest ih =>
    rw [List.foldl_cons, ih, threadEvents_step]
    by_cases h : routedTo pid tid e <;> simp [h, List.filter_cons]

lemma finalizeProcess_pid (p : Process) : (finalizeProcess p).pid = p.pid := rfl

lemma finalizeThread_tid (th : Thread) : (finalizeThread th).tid = th.tid := rfl

lemma findProc_map_finalize (procs : List Process) (pid : Int) :
    findProc (procs.map finalizeProcess) pid
      = (findProc procs pid).map finalizeProcess := by
  unfold findProc
  induction procs with
  | nil => rfl
  | cons p rest ih =>
    by_cases h : p.pid == pid
    · simp [List.find?, finalizeProcess_pid, h]
    · simp [List.find?, finalizeProcess_pid, h, ih]

lemma findThread_map_finalize (p : Process) (tid : Int) :
    findThread (finalizeProcess p) tid
      = (findThread p tid).map finalizeThread := by
  show (p.threads.map finalizeThread).find? (fun th => th.tid == tid)
      = (p.threads.find? (fun th => th.tid == tid)).map finalizeThread
  induction p.threads with
  | nil => rfl
  | cons th rest ih =>
    by_cases h : th.tid == tid <;>
      simp [List.find?, finalizeThread_tid, h, ih]

/-- The finalization pass rewrites each existing thread's event list to the
depth-annotated stable sort of it. -/
lemma threadEvents_map_finalize (procs : List Process) (pid tid : Int) :
    threadEvents (procs.map finalizeProcess) pid tid
      = (depthPass [] 0 (sortByTs (threadEvents procs pid tid))).1 := by
  unfold threadEvents
  rw [findProc_map_finalize]
  cases hfp : findProc procs pid with
  | none => simp [sortByTs, List.insertionSort, depthPass]
  | some p =>
    simp only [Option.map_some', Option.some_bind']
    rw [findThread_map_finalize]
    cases hft : findThread p tid with
    | none => simp [sortByTs, List.insertionSort, depthPass]
    | some th => simp [finalizeThread]

/-- Full characterization of a thread's event list in the ingested model:
the depth-annotated stable sort of the normalized records routed to that
thread, in input order. -/
lemma buildModel_threadEvents (l : List RawEvent) (pid tid : Int) :
    threadEvents (buildModel l).processes pid tid
      = (depthPass [] 0 (sortByTs ((l.filter (routedTo pid tid)).map normalize))).1 := by
  show threadEvents (((l.foldl step
      { processes := [], minTime := ⊤, maxTime := ⊥ }).processes).map finalizeProcess) pid tid = _
  rw [threadEvents_map_finalize, threadEvents_foldl]
  simp [threadEvents, findProc, List.find?]

/-! ## The stable sort and the depth pass -/

instance : IsTotal TraceEvent (fun a b => a.ts ≤ b.ts) :=
  ⟨fun a b => le_total a.ts b.ts⟩

instance : IsTrans TraceEvent (fun a b => a.ts ≤ b.ts) :=
  ⟨fun _ _ _ h₁ h₂ => le_trans h₁ h₂⟩

/-- The sort of line 96 sorts by `ts`. -/
lemma sorted_sortByTs (l : List TraceEvent) :
    (sortByTs l).Pairwise (fun a b => a.ts ≤ b.ts) :=
  List.sorted_insertionSort _ l

/-- The sort of line 96 permutes the events. -/
lemma perm_sortByTs (l : List TraceEvent) : List.Perm (sortByTs l) l :=
  List.perm_insertionSort _ l

/-- Stability of one insertion step: the sublist of events at any fixed
timestamp `t` is unchanged (the inserted event, if at `t`, lands before all
of them because entries skipped over are strictly earlier). -/
lemma filter_orderedInsert (t : Int) (a : TraceEvent) (l : List TraceEvent) :
    (List.orderedInsert (fun x y => x.ts ≤ y.ts) a l).filter (fun e => e.ts == t)
      = if a.ts == t then a :: l.filter (fun e => e.ts == t)
        else l.filter (fun e => e.ts == t) := by
  induction l with
  | nil =>
    by_cases h : a.ts = t
    · simp [List.orderedInsert, List.filter, h]
    · have hb : (a.ts == t) = false := by simpa using h
      simp [List.orderedInsert, List.filter, hb, h]
  | cons b rest ih =>
    by_cases hab : a.ts ≤ b.ts
    · simp only [List.orderedInsert, if_pos hab]
      by_cases ha : a.ts = t <;> simp [ha, List.filter_cons]
    · simp only [List.orderedInsert, if_neg hab, List.filter_cons]
      by_cases hb : b.ts = t
      · by_cases ha : a.ts = t
        · omega
        · simp [ha, hb, ih]
      · simp [hb, ih]

/-- Stability of the sort of line 96: events sharing a timestamp keep their
original relative order. -/
lemma filter_sortByTs (t : Int) (l : List TraceEvent) :
    (sortByTs l).filter (fun e => e.ts == t) = l.filter (fun e => e.ts == t) := by
  induction l with
  | nil => rfl
  | cons e rest ih =>
    show (List.orderedInsert _ e (sortByTs rest)).filter _ = _
    rw [filter_orderedInsert, List.filter_cons]
    by_cases h : e.ts == t <;> simp [h, ih]

/-- The depth pass only writes the `depth` field: erasing depths recovers
the input list. -/
lemma depthPass_map_eraseDepth (stack : List TraceEvent) (maxD : Nat)
    (l : List TraceEvent) :
    (depthPass stack maxD l).1.map eraseDepth = l.map eraseDepth := by
  induction l generalizing stack maxD with
  | nil => simp [depthPass]
  | cons e rest ih => simp [depthPass, ih, eraseDepth]

/-- The depth pass preserves every timestamp in place. -/
lemma depthPass_map_ts (stack : List TraceEvent) (maxD : Nat) (l : List TraceEvent) :
    (depthPass stack maxD l).1.map (fun e => e.ts) = l.map (fun e => e.ts) := by
  have h := congrArg (List.map (fun e => e.ts)) (depthPass_map_eraseDepth stack maxD l)
  simpa [List.map_map, Function.comp, eraseDepth] using h

/-- The depth pass preserves `dur` in place. -/
lemma depthPass_map_dur (stack : List TraceEvent) (maxD : Nat) (l : List TraceEvent) :
    (depthPass stack maxD l).1.map (fun e => e.dur) = l.map (fun e => e.dur) := by
  have h := congrArg (List.map (fun e => e.dur)) (depthPass_map_eraseDepth stack maxD l)
  simpa [List.map_map, Function.comp, eraseDepth] using h

/-- Line 124: the returned `maxDepth` equals the running maximum of the
assigned depths over the returned events. -/
lemma depthPass_maxD (stack : List TraceEvent) (maxD : Nat) (l : List TraceEvent) :
    (depthPass stack maxD l).2
      = (depthPass stack maxD l).1.foldl (fun m e => max m e.depth) maxD := by
  induction l generalizing stack maxD with
  | nil => simp [depthPass]
  | cons e rest ih => simp [depthPass, ih]

/-- A membership form of `depthPass_map_eraseDepth` together with the sort
permutation: every event of a finalized thread is an original event of that
thread up to its `depth` field. -/
lemma mem_finalizeThread {th : Thread} {ev : TraceEvent}
    (h : ev ∈ (finalizeThread th).events) :
    ∃ ev₀ ∈ th.events, eraseDepth ev₀ = eraseDepth ev := by
  have h1 : eraseDepth ev ∈ (depthPass [] 0 (sortByTs th.events)).1.map eraseDepth :=
    List.mem_map_of_mem eraseDepth h
  rw [depthPass_map_eraseDepth] at h1
  have h2 : List.Perm ((sortByTs th.events).map eraseDepth) (th.events.map eraseDepth) :=
    (perm_sortByTs th.events).map eraseDepth
  have h3 := h2.mem_iff.mp h1
  obtain ⟨ev₀, hm, he⟩ := List.mem_map.mp h3
  exact ⟨ev₀, hm, he⟩

/-! ## Invariants of the fold: every stored event -/

lemma endOf_eq (ts dur : Int) : endOf ts dur = ts + dur := by
  unfold endOf
  split_ifs with h
  · rfl
  · omega

lemma step_processes {e : RawEvent} (st : PState) (h : skipped e = false) :
    (step st e).processes = updProcesses e st.processes := by
  simp [step, h]

lemma step_processes_skip {e : RawEvent} (st : PState) (h : skipped e = true) :
    step st e = st := by
  simp [step, h]

lemma mem_updThreads {e : RawEvent} {ths : List Thread} {th' : Thread}
    (h : th' ∈ updThreads e ths) :
    th' ∈ ths ∨ (∃ th ∈ ths, th' = applyToThread e th)
      ∨ th' = applyToThread e (newThread e) := by
  induction ths with
  | nil =>
    simp only [updThreads, List.mem_singleton] at h
    exact Or.inr (Or.inr h)
  | cons th rest ih =>
    unfold updThreads at h
    by_cases ht : th.tid == e.tid
    · rw [if_pos ht] at h
      rcases List.mem_cons.mp h with h | h
      · exact Or.inr (Or.inl ⟨th, List.mem_cons_self th rest, h⟩)
      · exact Or.inl (List.mem_cons_of_mem _ h)
    · rw [if_neg ht] at h
      rcases List.mem_cons.mp h with h | h
      · exact Or.inl (h ▸ List.mem_cons_self th rest)
      · rcases ih h with h | ⟨th₂, hm, he⟩ | h
        · exact Or.inl (List.mem_cons_of_mem _ h)
        · exact Or.inr (Or.inl ⟨th₂, List.mem_cons_of_mem _ hm, he⟩)
        · exact Or.inr (Or.inr h)

lemma mem_updProcesses {e : RawEvent} {procs : List Process} {p' : Process}
    (h : p' ∈ updProcesses e procs) :
    p' ∈ procs ∨ (∃ p ∈ procs, p' = applyToProcess e p)
      ∨ p' = applyToProcess e (newProcess e) := by
  induction procs with
  | nil =>
    simp only [updProcesses, List.mem_singleton] at h
    exact Or.inr (Or.inr h)
  | cons p rest ih =>
    unfold updProcesses at h
    by_cases hp : p.pid == e.pid
    · rw [if_pos hp] at h
      rcases List.mem_cons.mp h with h | h
      · exact Or.inr (Or.inl ⟨p, List.mem_cons_self p rest, h⟩)
      · exact Or.inl (List.mem_cons_of_mem _ h)
    · rw [if_neg hp] at h
      rcases List.mem_cons.mp h with h | h
      · exact Or.inl (h ▸ List.mem_cons_self p rest)
      · rcases ih h with h | ⟨p₂, hm, he⟩ | h
        · exact Or.inl (List.mem_cons_of_mem _ h)
        · exact Or.inr (Or.inl ⟨p₂, List.mem_cons_of_mem _ hm, he⟩)
        · exact Or.inr (Or.inr h)

lemma events_applyToThread {P : TraceEvent → Prop} (e : RawEvent) (th : Thread)
    (hold : ∀ ev ∈ th.events, P ev)
    (hnew : (e.ph == "M") = false → P (normalize e)) :
    ∀ ev ∈ (applyToThread e th).events, P ev := by
  intro ev hev
  rw [applyToThread_events] at hev
  rcases List.mem_append.mp hev with h | h
  · exact hold ev h
  · by_cases hm : e.ph == "M"
    · rw [if_pos hm] at h
      cases h
    · have hm' : (e.ph == "M") = false := by simpa using hm
      rw [if_neg hm] at h
      rcases List.mem_singleton.mp h with rfl
      exact hnew hm'

lemma events_updThreads {P : TraceEvent → Prop} (e : RawEvent) (ths : List Thread)
    (hold : ∀ th ∈ ths, ∀ ev ∈ th.events, P ev)
    (hnew : (e.ph == "M") = false → P (normalize e)) :
    ∀ th ∈ updThreads e ths, ∀ ev ∈ th.events, P ev := by
  intro th' hth' ev hev
  rcases mem_updThreads hth' with h | ⟨th, hm, he⟩ | he
  · exact hold th' h ev hev
  · exact events_applyToThread e th (hold th hm) hnew ev (he ▸ hev)
  · refine events_applyToThread e (newThread e) ?_ hnew ev (he ▸ hev)
    intro ev₀ h₀
    simp [newThread] at h₀

lemma events_updProcesses {P : TraceEvent → Prop} (e : RawEvent) (procs : List Process)
    (hold : ∀ p ∈ procs, ∀ th ∈ p.threads, ∀ ev ∈ th.events, P ev)
    (hnew : (e.ph == "M") = false → P (normalize e)) :
    ∀ p ∈ updProcesses e procs, ∀ th ∈ p.threads, ∀ ev ∈ th.events, P ev := by
  intro p' hp'
  rcases mem_updProcesses hp' with h | ⟨p, hm, he⟩ | he
  · exact hold p' h
  · intro th hth
    rw [he, applyToProcess_threads] at hth
    exact events_updThreads e _ (hold p hm) hnew th hth
  · intro th hth
    rw [he, applyToProcess_threads] at hth
    refine events_updThreads e _ ?_ hnew th hth
    intro th₀ h₀
    simp [newProcess] at h₀

lemma events_step {P : TraceEvent → Prop} (st : PState) (e : RawEvent)
    (hold : ∀ p ∈ st.processes, ∀ th ∈ p.threads, ∀ ev ∈ th.events, P ev)
    (hnew : skipped e = false → (e.ph == "M") = false → P (normalize e)) :
    ∀ p ∈ (step st e).processes, ∀ th ∈ p.threads, ∀ ev ∈ th.events, P ev := by
  by_cases hs : skipped e
  · rw [step_processes_skip st hs]
    exact hold
  · have hs' : skipped e = false := by simpa using hs
    rw [step_processes st hs']
    exact events_updProcesses e st.processes hold (hnew hs')

/-- Every event stored by the fold satisfies `P`, provided `P` holds of the
normalization of every non-skipped, non-metadata input record. -/
lemma events_foldl {P : TraceEvent → Prop} (l : List RawEvent) (st : PState)
    (hold : ∀ p ∈ st.processes, ∀ th ∈ p.threads, ∀ ev ∈ th.events, P ev)
    (hnew : ∀ e ∈ l, skipped e = false → (e.ph == "M") = false → P (normalize e)) :
    ∀ p ∈ (l.foldl step st).processes, ∀ th ∈ p.threads, ∀ ev ∈ th.events, P ev := by
  induction l generalizing st with
  | nil => exact hold
  | cons e rest ih =>
    rw [List.foldl_cons]
    refine ih (step st e) ?_ ?_
    · exact events_step st e hold (hnew e (List.mem_cons_self e rest))
    · exact fun a ha => hnew a (List.mem_cons_of_mem e ha)

/-! ## Monotonicity of the running time bounds -/

lemma step_minTime_le (st : PState) (e : RawEvent) :
    (step st e).minTime ≤ st.minTime := by
  by_cases h : skipped e
  · rw [step_processes_skip st h]
  · simp only [step, h, Bool.false_eq_true, if_false]
    split_ifs with h2
    · exact le_of_lt h2
    · exact le_refl _

lemma step_maxTime_ge (st : PState) (e : RawEvent) :
    st.maxTime ≤ (step st e).maxTime := by
  by_cases h : skipped e
  · rw [step_processes_skip st h]
  · simp only [step, h, Bool.false_eq_true, if_false]
    split_ifs with h2
    · exact le_of_lt h2
    · exact le_refl _

lemma step_minTime_le_ts (st : PState) (e : RawEvent) (h : skipped e = false) :
    (step st e).minTime ≤ ((e.ts : Int) : WithTop Int) := by
  simp only [step, h, Bool.false_eq_true, if_false]
  split_ifs with h2
  · exact le_refl _
  · exact le_of_not_lt h2

lemma step_maxTime_ge_end (st : PState) (e : RawEvent) (h : skipped e = false) :
    ((endOf e.ts (normDur e) : Int) : WithBot Int) ≤ (step st e).maxTime := by
  simp only [step, h, Bool.false_eq_true, if_false]
  split_ifs with h2
  · exact le_refl _
  · exact le_of_not_lt h2

lemma foldl_minTime_le (l : List RawEvent) (st : PState) :
    (l.foldl step st).minTime ≤ st.minTime := by
  induction l generalizing st with
  | nil => exact le_refl _
  | cons e rest ih =>
    rw [List.foldl_cons]
    exact le_trans (ih (step st e)) (step_minTime_le st e)

lemma foldl_maxTime_ge (l : List RawEvent) (st : PState) :
    st.maxTime ≤ (l.foldl step st).maxTime := by
  induction l generalizing st with
  | nil => exact le_refl _
  | cons e rest ih =>
    rw [List.foldl_cons]
    exact le_trans (step_maxTime_ge st e) (ih (step st e))

lemma foldl_minTime_le_ts (l : List RawEvent) (st : PState) {e : RawEvent}
    (he : e ∈ l) (h : skipped e = false) :
    (l.foldl step st).minTime ≤ ((e.ts : Int) : WithTop Int) := by
  induction l generalizing st with
  | nil => cases he
  | cons a rest ih =>
    rw [List.foldl_cons]
    rcases List.mem_cons.mp he with rfl | hm
    · exact le_trans (foldl_minTime_le rest (step st e)) (step_minTime_le_ts st e h)
    · exact ih (step st a) hm

lemma foldl_maxTime_ge_end (l : List RawEvent) (st : PState) {e : RawEvent}
    (he : e ∈ l) (h : skipped e = false) :
    ((endOf e.ts (normDur e) : Int) : WithBot Int) ≤ (l.foldl step st).maxTime := by
  induction l generalizing st with
  | nil => cases he
  | cons a rest ih =>
    rw [List.foldl_cons]
    rcases List.mem_cons.mp he with rfl | hm
    · exact le_trans (step_maxTime_ge_end st e h) (foldl_maxTime_ge rest (step st e))
    · exact ih (step st a) hm

/-! ## The invariants transferred to the finished model -/

lemma buildModel_processes (l : List RawEvent) :
    (buildModel l).processes
      = ((l.foldl step { processes := [], minTime := ⊤, maxTime := ⊥ }).processes).map
          finalizeProcess := rfl

lemma buildModel_minTime (l : List RawEvent) :
    (buildModel l).minTime
      = (l.foldl step { processes := [], minTime := ⊤, maxTime := ⊥ }).minTime := rfl

lemma buildModel_maxTime (l : List RawEvent) :
    (buildModel l).maxTime
      = (l.foldl step { processes := [], minTime := ⊤, maxTime := ⊥ }).maxTime := rfl

/-- Every event of the finished model came from a stored phase-one event
with the same fields apart from `depth`. -/
lemma mem_buildModel {l : List RawEvent} {p : Process} {th : Thread} {ev : TraceEvent}
    (hp : p ∈ (buildModel l).processes) (hth : th ∈ p.threads) (hev : ev ∈ th.events) :
    ∃ p₀ ∈ (l.foldl step { processes := [], minTime := ⊤, maxTime := ⊥ }).processes,
      ∃ th₀ ∈ p₀.threads, ∃ ev₀ ∈ th₀.events, eraseDepth ev₀ = eraseDepth ev := by
  rw [buildModel_processes] at hp
  obtain ⟨p₀, hp₀, rfl⟩ := List.mem_map.mp hp
  have hth' : th ∈ p₀.threads.map finalizeThread := by
    simpa [finalizeProcess] using hth
  obtain ⟨th₀, hth₀, rfl⟩ := List.mem_map.mp hth'
  obtain ⟨ev₀, hev₀, he⟩ := mem_finalizeThread hev
  exact ⟨p₀, hp₀, th₀, hth₀, ev₀, hev₀, he⟩

lemma eraseDepth_ts (e : TraceEvent) : (eraseDepth e).ts = e.ts := rfl

lemma eraseDepth_dur (e : TraceEvent) : (eraseDepth e).dur = e.dur := rfl

lemma eraseDepth_ph (e : TraceEvent) : (eraseDepth e).ph = e.ph := rfl

/-- The model's time bounds bound every stored event's interval. -/
lemma buildModel_bounds (l : List RawEvent) :
    ∀ p ∈ (buildModel l).processes, ∀ th ∈ p.threads, ∀ ev ∈ th.events,
      (buildModel l).minTime ≤ ((ev.ts : Int) : WithTop Int)
      ∧ ((ev.ts + ev.dur : Int) : WithBot Int) ≤ (buildModel l).maxTime := by
  intro p hp th hth ev hev
  obtain ⟨p₀, hp₀, th₀, hth₀, ev₀, hev₀, he⟩ := mem_buildModel hp hth hev
  have hts : ev₀.ts = ev.ts := by
    rw [← eraseDepth_ts ev₀, ← eraseDepth_ts ev, he]
  have hdur : ev₀.dur = ev.dur := by
    rw [← eraseDepth_dur ev₀, ← eraseDepth_dur ev, he]
  have key := events_foldl
    (P := fun x =>
      (l.foldl step { processes := [], minTime := ⊤, maxTime := ⊥ }).minTime
          ≤ ((x.ts : Int) : WithTop Int)
      ∧ ((x.ts + x.dur : Int) : WithBot Int)
          ≤ (l.foldl step { processes := [], minTime := ⊤, maxTime := ⊥ }).maxTime)
    l { processes := [], minTime := ⊤, maxTime := ⊥ }
    (by intro p hp; cases hp)
    (by
      intro e hel hs _
      refine ⟨foldl_minTime_le_ts l _ hel hs, ?_⟩
      have := foldl_maxTime_ge_end l { processes := [], minTime := ⊤, maxTime := ⊥ } hel hs
      rwa [endOf_eq] at this)
  have hb := key p₀ hp₀ th₀ hth₀ ev₀ hev₀
  rw [buildModel_minTime, buildModel_maxTime, ← hts, ← hdur]
  exact hb

/-- No Metadata-phase record is ever stored in a thread's event list. -/
lemma buildModel_no_meta (l : List RawEvent) :
    ∀ p ∈ (buildModel l).processes, ∀ th ∈ p.threads, ∀ ev ∈ th.events,
      ev.ph ≠ "M" := by
  intro p hp th hth ev hev
  obtain ⟨p₀, hp₀, th₀, hth₀, ev₀, hev₀, he⟩ := mem_buildModel hp hth hev
  have hph : ev₀.ph = ev.ph := by
    rw [← eraseDepth_ph ev₀, ← eraseDepth_ph ev, he]
  have key := events_foldl (P := fun x => x.ph ≠ "M")
    l { processes := [], minTime := ⊤, maxTime := ⊥ }
    (by intro p hp; cases hp)
    (by
      intro e _ _ hm
      show (normalize e).ph ≠ "M"
      simpa [normalize] using hm)
  have hb := key p₀ hp₀ th₀ hth₀ ev₀ hev₀
  rw [← hph]
  exact hb

/-! ## The Y-cursor walks agree (claim C9 machinery) -/

lemma renderThreadRows_geom (height : ℚ) (ths : List Thread) (curY : ℚ) :
    (renderThreadRows height ths curY).1.map rowGeom
        = (hitThreadRows ths curY).1.map hitGeom
    ∧ (renderThreadRows height ths curY).2 = (hitThreadRows ths curY).2 := by
  induction ths generalizing curY with
  | nil => simp [renderThreadRows, hitThreadRows]
  | cons th rest ih =>
    obtain ⟨h1, h2⟩ := ih (curY + ((th.maxDepth : ℚ) + 1) * TRACK_HEIGHT + TRACK_PADDING)
    simp [renderThreadRows, hitThreadRows, rowGeom, hitGeom, h1, h2]

lemma renderRows_geom (height : ℚ) (ps : List Process) (curY : ℚ) :
    (renderRows height ps curY).1.map rowGeom = (hitRows ps curY).1.map hitGeom
    ∧ (renderRows height ps curY).2 = (hitRows ps curY).2 := by
  induction ps generalizing curY with
  | nil => simp [renderRows, hitRows]
  | cons p rest ih =>
    obtain ⟨t1, t2⟩ := renderThreadRows_geom height p.threads (curY + TRACK_HEIGHT + TRACK_PADDING)
    obtain ⟨r1, r2⟩ := ih ((hitThreadRows p.threads (curY + TRACK_HEIGHT + TRACK_PADDING)).2)
    simp [renderRows, hitRows, rowGeom, hitGeom, t1, t2, r1, r2]

/-! ## Last helper lemmas -/

lemma parseTrace_ok {data : TraceData} {m : TraceModel}
    (h : parseTrace data = .ok m) : m = buildModel (eventsOfData data) := by
  cases data with
  | arr l => simpa [parseTrace, eventsOfData, eq_comm] using h
  | objWithEvents l => simpa [parseTrace, eventsOfData, eq_comm] using h
  | objOther => simp [parseTrace] at h

lemma eraseDepth_normalize (e : RawEvent) :
    eraseDepth (normalize e) = normalize e := rfl

lemma map_eraseDepth_normalize (l : List RawEvent) :
    (l.map normalize).map eraseDepth = l.map normalize := by
  induction l with
  | nil => rfl
  | cons e rest ih => simp [ih, eraseDepth_normalize]

lemma map_eraseDepth_filter_ts (t : Int) (l : List TraceEvent) :
    (l.filter (fun e => e.ts == t)).map eraseDepth
      = (l.map eraseDepth).filter (fun e => e.ts == t) := by
  induction l with
  | nil => rfl
  | cons e rest ih =>
    by_cases h : e.ts = t
    · simp [List.filter_cons, eraseDepth, h, ih]
    · have hb : (e.ts == t) = false := by simpa using h
      simp [List.filter_cons, eraseDepth, hb, ih]

/-- A finalized event list is sorted non-decreasing by `ts`. -/
lemma sorted_finalize (l : List TraceEvent) :
    ((depthPass [] 0 (sortByTs l)).1).Pairwise (fun a b => a.ts ≤ b.ts) := by
  have h1 := sorted_sortByTs l
  have h2 : ((depthPass [] 0 (sortByTs l)).1).map (fun e => e.ts)
      = (sortByTs l).map (fun e => e.ts) := depthPass_map_ts _ _ _
  have h3 : ((sortByTs l).map (fun e => e.ts)).Pairwise (· ≤ ·) :=
    List.pairwise_map.mpr h1
  have h4 : (((depthPass [] 0 (sortByTs l)).1).map (fun e => e.ts)).Pairwise (· ≤ ·) :=
    h2 ▸ h3
  exact List.pairwise_map.mp h4

/-- Stability of the whole per-thread pipeline: at any fixed timestamp the
finished event list (depths erased) agrees with the routed input list. -/
lemma stable_finalize (raw : List RawEvent) (pid tid : Int) (t : Int) :
    ((threadEvents (buildModel raw).processes pid tid).filter
        (fun e => e.ts == t)).map eraseDepth
      = ((raw.filter (routedTo pid tid)).map normalize).filter (fun e => e.ts == t) := by
  rw [buildModel_threadEvents, map_eraseDepth_filter_ts, depthPass_map_eraseDepth,
    ← map_eraseDepth_filter_ts, filter_sortByTs, map_eraseDepth_filter_ts,
    map_eraseDepth_normalize]

/-! ## Display names: one-step effect, fold characterization -/

lemma applyToProcessName_name (e : RawEvent) (p : Process) :
    (applyToProcessName e p).name = procNameUpd e p.name := by
  unfold applyToProcessName procNameUpd
  split_ifs <;> (first | rfl | (cases e.argsName <;> rfl))

lemma applyToProcess_name (e : RawEvent) (p : Process) :
    (applyToProcess e p).name = procNameUpd e p.name :=
  applyToProcessName_name e p

lemma applyToThread_name (e : RawEvent) (th : Thread) :
    (applyToThread e th).name = threadNameUpd e th.name := by
  unfold applyToThread threadNameUpd
  split_ifs <;> (first | rfl | (cases e.argsName <;> rfl))

/-- One fold step rewrites the owning process's display name by
`procNameUpd` (creating the process with its defaulted name first when
needed) and leaves every other process name unchanged. -/
lemma procName_step (st : PState) (e : RawEvent) (pid : Int) :
    procName (step st e).processes pid
      = if ownedByProc pid e
        then some (procNameUpd e
            ((procName st.processes pid).getD ("Process " ++ toString pid)))
        else procName st.processes pid := by
  by_cases hs : skipped e
  · rw [step_processes_skip st hs]
    simp [ownedByProc, hs]
  · have hs' : skipped e = false := by simpa using hs
    rw [show (step st e).processes = updProcesses e st.processes from step_processes st hs']
    by_cases hp : pid = e.pid
    · subst hp
      unfold procName
      rw [updProcesses_find_eq]
      cases hfp : findProc st.processes e.pid with
      | none => simp [ownedByProc, hs', applyToProcess_name, newProcess]
      | some p => simp [ownedByProc, hs', applyToProcess_name]
    · have hne : (e.pid == pid) = false := by simpa using Ne.symm hp
      unfold procName
      rw [updProcesses_find_ne e _ pid hp]
      simp [ownedByProc, hne]

/-- One fold step rewrites the owning thread's display name by
`threadNameUpd` (creating the thread with its defaulted name first when
needed) and leaves every other thread name unchanged. -/
lemma threadName_step (st : PState) (e : RawEvent) (pid tid : Int) :
    threadName (step st e).processes pid tid
      = if ownedByThread pid tid e
        then some (threadNameUpd e
            ((threadName st.processes pid tid).getD ("Thread " ++ toString tid)))
        else threadName st.processes pid tid := by
  by_cases hs : skipped e
  · rw [step_processes_skip st hs]
    simp [ownedByThread, hs]
  · have hs' : skipped e = false := by simpa using hs
    rw [show (step st e).processes = updProcesses e st.processes from step_processes st hs']
    by_cases hp : pid = e.pid
    · subst hp
      unfold threadName findThread
      rw [updProcesses_find_eq]
      simp only [Option.some_bind', applyToProcess_threads]
      by_cases ht : tid = e.tid
      · subst ht
        rw [updThreads_find_eq]
        cases hfp : findProc st.processes e.pid with
        | none =>
          simp [ownedByThread, hs', newProcess, updThreads, List.find?,
            applyToThread_name, newThread]
        | some p =>
          cases hft : p.threads.find? (fun th => th.tid == e.tid) with
          | none => simp [ownedByThread, hs', hft, applyToThread_name, newThread]
          | some th => simp [ownedByThread, hs', hft, applyToThread_name]
      · have hne : (e.tid == tid) = false := by simpa using Ne.symm ht
        rw [updThreads_find_ne e _ tid ht]
        cases hfp : findProc st.processes e.pid with
        | none => simp [ownedByThread, hne, newProcess, List.find?]
        | some p =>
          cases hft : p.threads.find? (fun th => th.tid == tid) with
          | none => simp [ownedByThread, hne, hft]
          | some th => simp [ownedByThread, hne, hft]
    · have hne : (e.pid == pid) = false := by simpa using Ne.symm hp
      unfold threadName
      rw [updProcesses_find_ne e _ pid hp]
      simp [ownedByThread, hne]

/-- Generic fold lemma for a name-valued query with a `procName_step`-shaped
one-step law, starting from a state where the entity exists with name `n₀`. -/
lemma name_foldl_some (f : PState → Option String) (q : RawEvent → Bool)
    (u : RawEvent → String → String) (d : String)
    (hstep : ∀ st e, f (step st e)
      = if q e then some (u e ((f st).getD d)) else f st)
    (l : List RawEvent) (st : PState) (n₀ : String) (h : f st = some n₀) :
    f (l.foldl step st) = some ((l.filter q).foldl (fun n e => u e n) n₀) := by
  induction l generalizing st n₀ with
  | nil => simpa using h
  | cons e rest ih =>
    rw [List.foldl_cons, List.filter_cons]
    by_cases hq : q e
    · have h1 : f (step st e) = some (u e n₀) := by
        rw [hstep st e, if_pos hq, h]
        rfl
      simpa [hq] using ih (step st e) (u e n₀) h1
    · have h1 : f (step st e) = some n₀ := by
        rw [hstep st e, if_neg hq]
        exact h
      simpa [hq] using ih (step st e) n₀ h1

/-- Generic fold lemma as `name_foldl_some`, starting from a state where the
entity does not exist: it exists afterwards iff some record is routed to it,
and its name is then the updates folded over the defaulted name. -/
lemma name_foldl_none (f : PState → Option String) (q : RawEvent → Bool)
    (u : RawEvent → String → String) (d : String)
    (hstep : ∀ st e, f (step st e)
      = if q e then some (u e ((f st).getD d)) else f st)
    (l : List RawEvent) (st : PState) (h : f st = none) :
    f (l.foldl step st)
      = if l.filter q = [] then none
        else some ((l.filter q).foldl (fun n e => u e n) d) := by
  induction l generalizing st with
  | nil => simpa using h
  | cons e rest ih =>
    rw [List.foldl_cons, List.filter_cons]
    by_cases hq : q e
    · have h1 : f (step st e) = some (u e d) := by
        rw [hstep st e, if_pos hq, h]
        rfl
      have h2 := name_foldl_some f q u d hstep rest (step st e) (u e d) h1
      simp [hq, h2]
    · have h1 : f (step st e) = none := by
        rw [hstep st e, if_neg hq]
        exact h
      simpa [hq] using ih (step st e) h1

lemma procName_map_finalize (procs : List Process) (pid : Int) :
    procName (procs.map finalizeProcess) pid = procName procs pid := by
  unfold procName
  rw [findProc_map_finalize]
  cases findProc procs pid <;> rfl

lemma threadName_map_finalize (procs : List Process) (pid tid : Int) :
    threadName (procs.map finalizeProcess) pid tid = threadName procs pid tid := by
  unfold threadName
  rw [findProc_map_finalize]
  cases hfp : findProc procs pid with
  | none => rfl
  | some p =>
    simp only [Option.map_some', Option.some_bind']
    rw [findThread_map_finalize]
    cases findThread p tid <;> rfl

/-- Full characterization of a process's display name in the ingested
model: the process exists iff some non-skipped record carries its pid, and
its name is the defaulted `Process {pid}` with the `process_name` updates
applied in input order. -/
lemma buildModel_procName (l : List RawEvent) (pid : Int) :
    procName (buildModel l).processes pid
      = if l.filter (ownedByProc pid) = [] then none
        else some ((l.filter (ownedByProc pid)).foldl
            (fun n e => procNameUpd e n) ("Process " ++ toString pid)) := by
  show procName (((l.foldl step
      { processes := [], minTime := ⊤, maxTime := ⊥ }).processes).map finalizeProcess) pid = _
  rw [procName_map_finalize]
  exact name_foldl_none (fun st => procName st.processes pid) (ownedByProc pid)
    procNameUpd ("Process " ++ toString pid)
    (fun st e => procName_step st e pid) l
    { processes := [], minTime := ⊤, maxTime := ⊥ } rfl

/-- Full characterization of a thread's display name in the ingested model:
the thread exists iff some non-skipped record carries its (pid, tid), and
its name is the defaulted `Thread {tid}` with the `thread_name` updates
applied in input order. -/
lemma buildModel_threadName (l : List RawEvent) (pid tid : Int) :
    threadName (buildModel l).processes pid tid
      = if l.filter (ownedByThread pid tid) = [] then none
        else some ((l.filter (ownedByThread pid tid)).foldl
            (fun n e => threadNameUpd e n) ("Thread " ++ toString tid)) := by
  show threadName (((l.foldl step
      { processes := [], minTime := ⊤, maxTime := ⊥ }).processes).map finalizeProcess) pid tid = _
  rw [threadName_map_finalize]
  exact name_foldl_none (fun st => threadName st.processes pid tid) (ownedByThread pid tid)
    threadNameUpd ("Thread " ++ toString tid)
    (fun st e => threadName_step st e pid tid) l
    { processes := [], minTime := ⊤, maxTime := ⊥ } rfl

/-! ## Concrete scenario inputs from the specification -/

/-- `{name:"A",ph:"X",ts:0,dur:100,pid:1,tid:1}`. -/
def eventA : RawEvent :=
  { name := "A", cat := "", ph := "X", ts := 0, pid := 1, tid := 1,
    dur := some 100, argsName := none }

/-- `{name:"B",ph:"X",ts:10,dur:20,pid:1,tid:1}`. -/
def eventB : RawEvent :=
  { name := "B", cat := "", ph := "X", ts := 10, pid := 1, tid := 1,
    dur := some 20, argsName := none }

/-- First sibling `{ts:0,dur:10}` of the sibling scenario. -/
def sibling1 : RawEvent :=
  { name := "S1", cat := "", ph := "X", ts := 0, pid := 1, tid := 1,
    dur := some 10, argsName := none }

/-- Second sibling `{ts:10,dur:10}` of the sibling scenario. -/
def sibling2 : RawEvent :=
  { name := "S2", cat := "", ph := "X", ts := 10, pid := 1, tid := 1,
    dur := some 10, argsName := none }

/-- A Metadata-phase record whose name is not a recognized naming event. -/
def metaOther : RawEvent :=
  { name := "custom_meta", cat := "", ph := "M", ts := 0, pid := 1, tid := 1,
    dur := none, argsName := none }

/-- The spec's naming scenario
`{name:"process_name",ph:"M",pid:1,tid:0,args:{name:"Renderer"}}`. -/
def metaProcName : RawEvent :=
  { name := "process_name", cat := "", ph := "M", ts := 0, pid := 1, tid := 0,
    dur := none, argsName := some "Renderer" }

/-- A thread-naming Metadata record
`{name:"thread_name",ph:"M",pid:1,tid:7,args:{name:"WorkerPool"}}`. -/
def metaThreadName : RawEvent :=
  { name := "thread_name", cat := "", ph := "M", ts := 0, pid := 1, tid := 7,
    dur := none, argsName := some "WorkerPool" }

/-- A record with both ids absent/zero-equivalent. -/
def noIds : RawEvent :=
  { name := "stray", cat := "", ph := "X", ts := 12345, pid := 0, tid := 0,
    dur := some 99, argsName := none }

/-- The process produced by ingesting `[eventB, eventA]` (B first, i.e. an
unsorted input), used to instantiate membership hypotheses in witnesses. -/
def procBA : Process :=
  { pid := 1, name := "Process 1",
    threads := [{ tid := 1, name := "Thread 1",
                  events := [{ name := "A", cat := "", ph := "X", ts := 0, pid := 1,
                               tid := 1, dur := 100, argsName := none, depth := 0 },
                             { name := "B", cat := "", ph := "X", ts := 10, pid := 1,
                               tid := 1, dur := 20, argsName := none, depth := 1 }],
                  maxDepth := 1 }] }

/-! ## The claims -/

/-- C1: per thread, depth is assigned by the sorted left-to-right stack pass
(pop entries whose end time ≤ the event's start, depth = resulting stack
size, push, `maxDepth = max(maxDepth, depth)`). In particular the A/B input
gives A depth 0, B depth 1, `maxDepth` 1 (with one Process 1 / Thread 1 and
`minTime` 0, `maxTime` 100), two siblings meeting at t = 10 both get depth
0, and in every ingested model every thread's `maxDepth` is the running
maximum of its events' depths. -/
theorem depth_pass_spec :
    ((threadEvents (buildModel [eventA, eventB]).processes 1 1).map
          (fun e => (e.name, e.depth)) = [("A", 0), ("B", 1)]
      ∧ (modelThread (buildModel [eventA, eventB]) 1 1).map Thread.maxDepth = some 1
      ∧ (buildModel [eventA, eventB]).processes.map
          (fun p => (p.pid, p.threads.map Thread.tid)) = [(1, [1])]
      ∧ (buildModel [eventA, eventB]).minTime = ((0 : Int) : WithTop Int)
      ∧ (buildModel [eventA, eventB]).maxTime = ((100 : Int) : WithBot Int))
    ∧ ((threadEvents (buildModel [sibling1, sibling2]).processes 1 1).map
          (fun e => (e.name, e.depth)) = [("S1", 0), ("S2", 0)])
    ∧ ∀ data m, parseTrace data = .ok m → ∀ p ∈ m.processes, ∀ th ∈ p.threads,
        th.maxDepth = th.events.foldl (fun acc e => max acc e.depth) 0 := by
  refine ⟨⟨by decide, by decide, by decide, by decide, by decide⟩, by decide, ?_⟩
  intro data m hok p hp th hth
  have hm := parseTrace_ok hok
  subst hm
  rw [buildModel_processes] at hp
  obtain ⟨p₀, hp₀, rfl⟩ := List.mem_map.mp hp
  have hth' : th ∈ p₀.threads.map finalizeThread := by
    simpa [finalizeProcess] using hth
  obtain ⟨th₀, hth₀, rfl⟩ := List.mem_map.mp hth'
  exact depthPass_maxD [] 0 (sortByTs th₀.events)

/-- Witness for C1's quantified conjunct, at the concrete A/B input. -/
theorem depth_pass_spec_witness :
    ((buildModel [eventA, eventB]).processes.all (fun p => p.threads.all
      (fun th => th.maxDepth == th.events.foldl (fun acc e => max acc e.depth) 0))) = true := by
  have h := depth_pass_spec.2.2 (.arr [eventA, eventB]) _ rfl
  simp only [List.all_eq_true, beq_iff_eq]
  intro p hp th hth
  exact h p hp th hth

/-- C2 counterexample: `metaOther` is a non-skipped Metadata-phase record
that is not a recognized naming event, yet the ingested model's only
thread (Process 1 / Thread 1) has an empty event list — the record was not
appended anywhere, contradicting the claim. -/
theorem metadata_unrecognized_dropped :
    skipped metaOther = false
    ∧ metaOther.ph = "M"
    ∧ metaOther.name ≠ "process_name" ∧ metaOther.name ≠ "thread_name"
    ∧ (buildModel [metaOther]).processes
        = [{ pid := 1, name := "Process 1",
             threads := [{ tid := 1, name := "Thread 1", events := [], maxDepth := 0 }] }] := by
  decide

/-- C2 (amended): ingestion routes records as follows. (i) No
Metadata-phase record (recognized naming event or not) is ever appended to
any Thread's event list. (ii) Every other non-skipped record is appended to
exactly its owning Thread's event list: up to the stable sort, each
thread's event list is the normalized routed input sub-list. (iii)/(iv)
Recognized naming events update the owning display names, and nothing else
touches them: every process's display name is the defaulted
`Process {pid}` with the `process_name`-with-truthy-`args.name` updates of
its non-skipped records applied in input order (`procNameUpd`), and every
thread's display name is the defaulted `Thread {tid}` with the
`thread_name` updates of its records applied in input order
(`threadNameUpd`); the process/thread exists iff some non-skipped record
carries its ids. -/
theorem metadata_routing_amended :
    (∀ data m, parseTrace data = .ok m →
        ∀ p ∈ m.processes, ∀ th ∈ p.threads, ∀ ev ∈ th.events, ev.ph ≠ "M")
    ∧ (∀ data m, parseTrace data = .ok m → ∀ pid tid,
        List.Perm ((threadEvents m.processes pid tid).map eraseDepth)
          (((eventsOfData data).filter (routedTo pid tid)).map normalize))
    ∧ (∀ data m, parseTrace data = .ok m → ∀ pid,
        procName m.processes pid
          = if (eventsOfData data).filter (ownedByProc pid) = [] then none
            else some (((eventsOfData data).filter (ownedByProc pid)).foldl
                (fun n e => procNameUpd e n) ("Process " ++ toString pid)))
    ∧ (∀ data m, parseTrace data = .ok m → ∀ pid tid,
        threadName m.processes pid tid
          = if (eventsOfData data).filter (ownedByThread pid tid) = [] then none
            else some (((eventsOfData data).filter (ownedByThread pid tid)).foldl
                (fun n e => threadNameUpd e n) ("Thread " ++ toString tid))) := by
  refine ⟨?_, ?_, ?_, ?_⟩
  · intro data m hok
    have hm := parseTrace_ok hok
    subst hm
    exact buildModel_no_meta _
  · intro data m hok pid tid
    have hm := parseTrace_ok hok
    subst hm
    rw [buildModel_threadEvents, depthPass_map_eraseDepth]
    have hperm := (perm_sortByTs
      (((eventsOfData data).filter (routedTo pid tid)).map normalize)).map eraseDepth
    rwa [map_eraseDepth_normalize] at hperm
  · intro data m hok pid
    have hm := parseTrace_ok hok
    subst hm
    exact buildModel_procName (eventsOfData data) pid
  · intro data m hok pid tid
    have hm := parseTrace_ok hok
    subst hm
    exact buildModel_threadName (eventsOfData data) pid tid

/-- Witness for C2's amended claim: the unrecognized Metadata record
`metaOther` is stored nowhere, the routable record is routed, the
`process_name` event renames Process 1 to `Renderer`, and the
`thread_name` event renames Thread (1, 7) to `WorkerPool`. -/
theorem metadata_routing_amended_witness :
    ((buildModel [eventA, metaOther]).processes.all (fun p => p.threads.all
        (fun th => th.events.all (fun ev => ev.ph != "M")))) = true
    ∧ List.Perm ((threadEvents (buildModel [eventA, metaOther]).processes 1 1).map eraseDepth)
        ((([eventA, metaOther].filter (routedTo 1 1)).map normalize))
    ∧ procName (buildModel [metaProcName]).processes 1 = some "Renderer"
    ∧ threadName (buildModel [metaThreadName]).processes 1 7 = some "WorkerPool" := by
  refine ⟨?_, ?_, ?_, ?_⟩
  · have h := metadata_routing_amended.1 (.arr [eventA, metaOther]) _ rfl
    simp only [List.all_eq_true, bne_iff_ne]
    intro p hp th hth ev hev
    exact h p hp th hth ev hev
  · exact metadata_routing_amended.2.1 (.arr [eventA, metaOther]) _ rfl 1 1
  · have h := metadata_routing_amended.2.2.1 (.arr [metaProcName]) _ rfl 1
    rw [h]
    decide
  · have h := metadata_routing_amended.2.2.2 (.arr [metaThreadName]) _ rfl 1 7
    rw [h]
    decide

/-- C3: ingestion fails with `FormatError` exactly when the input is
neither an array nor an object exposing the `traceEvents` array: every
array input and every object with the array field succeeds, and everything
else — in particular `{}`, modelled by `TraceData.objOther` — yields the
`Invalid trace format` error. -/
theorem parse_format_error_iff :
    (∀ l, ∃ m, parseTrace (.arr l) = Except.ok m)
    ∧ (∀ l, ∃ m, parseTrace (.objWithEvents l) = Except.ok m)
    ∧ parseTrace .objOther = .error "Invalid trace format" :=
  ⟨fun l => ⟨buildModel l, rfl⟩, fun l => ⟨buildModel l, rfl⟩, rfl⟩

/-- C4: in every ingested model every thread's event list is sorted
non-decreasing by `startTime`, and the sort is stable: at each fixed
timestamp the finished list (depths erased) is exactly the routed input
records in their original input order. -/
theorem thread_events_sorted_stable :
    ∀ data m, parseTrace data = .ok m →
      (∀ p ∈ m.processes, ∀ th ∈ p.threads,
          th.events.Pairwise (fun a b => a.ts ≤ b.ts))
      ∧ ∀ pid tid t,
          ((threadEvents m.processes pid tid).filter (fun e => e.ts == t)).map eraseDepth
            = (((eventsOfData data).filter (routedTo pid tid)).map normalize).filter
                (fun e => e.ts == t) := by
  intro data m hok
  have hm := parseTrace_ok hok
  subst hm
  constructor
  · intro p hp th hth
    rw [buildModel_processes] at hp
    obtain ⟨p₀, hp₀, rfl⟩ := List.mem_map.mp hp
    have hth' : th ∈ p₀.threads.map finalizeThread := by
      simpa [finalizeProcess] using hth
    obtain ⟨th₀, hth₀, rfl⟩ := List.mem_map.mp hth'
    exact sorted_finalize th₀.events
  · intro pid tid t
    exact stable_finalize (eventsOfData data) pid tid t

/-- Witness for C4 at the unsorted input `[eventB, eventA]`. -/
theorem thread_events_sorted_stable_witness :
    (procBA.threads.head (by decide)).events.Pairwise (fun a b => a.ts ≤ b.ts)
    ∧ ((threadEvents (buildModel [eventB, eventA]).processes 1 1).filter
          (fun e => e.ts == 10)).map eraseDepth
        = ((([eventB, eventA]).filter (routedTo 1 1)).map normalize).filter
            (fun e => e.ts == 10) := by
  have h := thread_events_sorted_stable (.arr [eventB, eventA]) _ rfl
  exact ⟨h.1 procBA (by decide) _ (by decide), h.2 1 1 10⟩

/-- C5: in every ingested model, `minTime` is ≤ every stored event's
`startTime` and `maxTime` is ≥ every stored event's `startTime + duration`
(`duration` having been defaulted to 0 when absent). -/
theorem model_time_bounds :
    ∀ data m, parseTrace data = .ok m →
      ∀ p ∈ m.processes, ∀ th ∈ p.threads, ∀ ev ∈ th.events,
        m.minTime ≤ ((ev.ts : Int) : WithTop Int)
        ∧ ((ev.ts + ev.dur : Int) : WithBot Int) ≤ m.maxTime := by
  intro data m hok
  have hm := parseTrace_ok hok
  subst hm
  exact buildModel_bounds _

/-- Witness for C5 at the A/B input and the stored event B. -/
theorem model_time_bounds_witness :
    (buildModel [eventB, eventA]).minTime
        ≤ (((procBA.threads.head (by decide)).events.head (by decide)).ts : WithTop Int)
    ∧ ((((procBA.threads.head (by decide)).events.head (by decide)).ts
          + ((procBA.threads.head (by decide)).events.head (by decide)).dur : Int) : WithBot Int)
        ≤ (buildModel [eventB, eventA]).maxTime := by
  have h := model_time_bounds (.arr [eventB, eventA]) _ rfl
    procBA (by decide) (procBA.threads.head (by decide)) (by decide)
    ((procBA.threads.head (by decide)).events.head (by decide)) (by decide)
  exact h

/-- C6: a record whose `pid` and `tid` are both absent/zero-equivalent is
dropped: ingesting any sequence containing it yields exactly the model of
the sequence without it — so it is in no thread's list, creates no
process or thread, and leaves `minTime`/`maxTime` untouched. -/
theorem skipped_record_dropped :
    ∀ (l₁ l₂ : List RawEvent) (e : RawEvent), skipped e = true →
      parseTrace (.arr (l₁ ++ e :: l₂)) = parseTrace (.arr (l₁ ++ l₂)) := by
  intro l₁ l₂ e h
  simp only [parseTrace, buildModel, List.foldl_append, List.foldl_cons,
    step_processes_skip _ h]

/-- Witness for C6: dropping the id-less record `noIds` from
`[eventA, noIds]` leaves the parse unchanged. -/
theorem skipped_record_dropped_witness :
    skipped noIds = true
    ∧ parseTrace (.arr [eventA, noIds]) = parseTrace (.arr [eventA]) :=
  ⟨by decide, skipped_record_dropped [eventA] [] noIds (by decide)⟩

/-- C7: the modifier-wheel zoom is anchored at the pointer: for any view
state, wheel delta and pointer position over a positive width, the time
value under the pointer is unchanged by the rescale (exact rational
arithmetic). -/
theorem wheel_zoom_anchor_fixed (s : ViewState) (deltaY mouseX width : ℚ)
    (_hw : 0 < width) :
    timeAtPixel (wheelZoom s deltaY mouseX width) mouseX width
      = timeAtPixel s mouseX width := by
  simp only [wheelZoom, timeAtPixel]
  ring

/-- Witness for C7 at a concrete view state and wheel event. -/
theorem wheel_zoom_anchor_fixed_witness :
    (0 : ℚ) < 800
    ∧ timeAtPixel (wheelZoom ⟨0, 1000⟩ 3 200 800) 200 800
        = timeAtPixel (⟨0, 1000⟩ : ViewState) 200 800 :=
  ⟨by norm_num, wheel_zoom_anchor_fixed ⟨0, 1000⟩ 3 200 800 (by norm_num)⟩

/-- C8: the held-key zoom steps (`w` zoom-in and `s` zoom-out) preserve the
center of the visible range exactly. -/
theorem key_zoom_preserves_center (s : ViewState) :
    ((zoomInStep s).visibleStartTime + (zoomInStep s).visibleEndTime) / 2
        = (s.visibleStartTime + s.visibleEndTime) / 2
    ∧ ((zoomOutStep s).visibleStartTime + (zoomOutStep s).visibleEndTime) / 2
        = (s.visibleStartTime + s.visibleEndTime) / 2 := by
  constructor
  · simp only [zoomInStep]
    ring
  · simp only [zoomOutStep]
    ring

/-- C9: the Y-cursor accumulation of `render` and of `getEventAt` is
identical: for every model, scroll offset and canvas height, the sequence
of (top, height) pairs of process headers and thread bands is the same in
both walks — and since the right-hand side does not depend on `height`,
the culling conditions (recorded in the `drawn` flags that the projection
discards) never change how the cursor advances. -/
theorem render_hit_cursor_agree (m : TraceModel) (scrollTop height : ℚ) :
    (renderWalk m scrollTop height).map rowGeom
      = (hitWalk m scrollTop).map hitGeom :=
  (renderRows_geom height m.processes (HEADER_HEIGHT - scrollTop)).1

/-- C10: ingesting an empty array — or any array whose records are all
skipped for missing ids — succeeds and yields the degenerate model with no
processes, `minTime = ⊤` (`+Infinity`) and `maxTime = ⊥` (`-Infinity`); the
timeline then initializes its visible range to that degenerate
`[+Infinity, -Infinity]` interval. -/
theorem empty_ingest_degenerate :
    (parseTrace (.arr [])
        = .ok { processes := [], minTime := ⊤, maxTime := ⊥ }
      ∧ initViewState { processes := [], minTime := ⊤, maxTime := ⊥ }
        = { visibleStartTime := ⊤, visibleEndTime := ⊥ })
    ∧ ∀ l : List RawEvent, (∀ e ∈ l, skipped e = true) →
        parseTrace (.arr l)
          = .ok { processes := [], minTime := ⊤, maxTime := ⊥ }
          ∧ initViewState (buildModel l)
            = { visibleStartTime := ⊤, visibleEndTime := ⊥ } := by
  refine ⟨⟨rfl, rfl⟩, ?_⟩
  intro l h
  have hfold : l.foldl step { processes := [], minTime := ⊤, maxTime := ⊥ }
      = { processes := [], minTime := ⊤, maxTime := ⊥ } := by
    induction l with
    | nil => rfl
    | cons e rest ih =>
      rw [List.foldl_cons, step_processes_skip _ (h e (List.mem_cons_self e rest))]
      exact ih (fun a ha => h a (List.mem_cons_of_mem e ha))
  constructor
  · simp [parseTrace, buildModel, hfold]
  · simp [initViewState, buildModel, hfold]

/-- Witness for C10 at the all-skipped input `[noIds]`. -/
theorem empty_ingest_degenerate_witness :
    parseTrace (.arr [noIds])
        = .ok { processes := [], minTime := ⊤, maxTime := ⊥ }
    ∧ initViewState (buildModel [noIds])
        = { visibleStartTime := ⊤, visibleEndTime := ⊥ } :=
  empty_ingest_degenerate.2 [noIds] (by decide)

end TraceViewer
